import Mathlib

/-!
Verification of the bankbot CI dispatcher against its specification.

The development shallowly embeds the parts of the source that the claims
concern: the Unix path operations used by `job.rs` and `api/git.rs`, the
keyed FIFO queue of `local_queue.rs`, the webhook command extraction of
`bin/gh-webhook-reactor.rs`, the cargo subprocess wrapper of
`api/cargo.rs`, and the TOML dependency rewriter of `api/rhai.rs`.
External library calls (std::path, indexmap, shell_words, toml_edit) are
embedded by their documented semantics.
-/

namespace Bankbot

/-!
A model of Unix paths as used by Rust's std::path: a path is a flag for
absoluteness plus a list of components, where `components()` has already
normalized away repeated separators and interior `.` components.
-/

/-- Component of a Unix path, as in std::path::Component (no Prefix on Unix). -/
inductive PComp where
  | curDir
  | parentDir
  | normal (s : String)
deriving DecidableEq

/-- Embedded std::path::PathBuf for Unix. -/
structure RPath where
  absolute : Bool
  comps : List PComp
deriving DecidableEq

/-- Embeds Rust `Path::join` / `PathBuf::push` on Unix: when the argument is
absolute it replaces the base path entirely; otherwise components are
appended. -/
def RPath.join (a b : RPath) : RPath :=
  if b.absolute then b else ⟨a.absolute, a.comps ++ b.comps⟩

/-- Embeds Rust `Path::file_name`: the final component when it is a normal
component, and `None` when the path ends in `..`, `.`, or is a bare root. -/
def RPath.fileName (p : RPath) : Option String :=
  match p.comps.getLast? with
  | some (PComp.normal s) => some s
  | _ => none

/-- Embeds Rust `PathBuf::set_file_name name`: when `file_name()` is `Some`,
pop the final component and push `name`; otherwise just push `name`. Note
that this REPLACES the last component of the base path. -/
def RPath.setFileName (p : RPath) (name : String) : RPath :=
  match p.fileName with
  | some _ => ⟨p.absolute, p.comps.dropLast ++ [PComp.normal name]⟩
  | none => ⟨p.absolute, p.comps ++ [PComp.normal name]⟩

/-- Boolean component-list prefix test (helper for `RPath.startsWith`). -/
def isPrefixComps : List PComp → List PComp → Bool
  | [], _ => true
  | _ :: _, [] => false
  | a :: restA, b :: restB => if a = b then isPrefixComps restA restB else false

/-- Embeds Rust `Path::starts_with`: component-wise prefix comparison. -/
def RPath.startsWith (p base : RPath) : Bool :=
  (p.absolute == base.absolute) && isPrefixComps base.comps p.comps

/-!
Embedding of `src/api/git.rs`. The `LocalRepo` struct fields that the
claims concern are the checkout directory, the optional commit identity
`config`, and the GitHub coordinates; the inner `git2::Repository`,
client handle and tokio handle carry no data the claims mention.
-/

/-- Embeds the private `Config` struct of src/api/git.rs (commit identity). -/
structure GitConfig where
  name : String
  email : String
deriving DecidableEq

/-- Embeds the struct `LocalRepo` of src/api/git.rs (the fields the claims
concern). -/
structure LocalRepo where
  dir : RPath
  config : Option GitConfig
  github_owner : String
  github_name : String
deriving DecidableEq

/-- Embeds `LocalRepo::new` (src/api/git.rs): every field set from the
arguments and `config: None`. -/
def LocalRepo.new (dir : RPath) (repo_owner repo_name : String) : LocalRepo :=
  ⟨dir, none, repo_owner, repo_name⟩

/-- Embeds `LocalRepo::with_repo` (src/api/git.rs): the same field
initialization with `config: None`; the subsequent
`checkout_remote_head(head)` only fetches and resets the inner git2
repository and assigns no struct field. -/
def LocalRepo.with_repo (dir : RPath) (repo_owner repo_name : String)
    (_head : String) : LocalRepo :=
  ⟨dir, none, repo_owner, repo_name⟩

/-- Embeds `LocalRepo::write_file` (src/api/git.rs lines 265-281): the path
is rejected when its components contain a parent-directory component;
otherwise the contents are written to `self.dir.join(path)` with no
canonicalization and no containment check (the `get_full_path` call is
commented out in the source). The embedded result carries the path that
`std::fs::write` receives. -/
def LocalRepo.write_file (s : LocalRepo) (path : RPath) : Except String RPath :=
  if path.comps.any (fun c => match c with | PComp.parentDir => true | _ => false) then
    Except.error "no `../` allowed in path names"
  else
    Except.ok (s.dir.join path)

/-- Embeds the signature selection in `LocalRepo::commit`
(src/api/git.rs lines 344-357): the configured identity when
`self.config` is `Some`, and the hard-coded fallback identity otherwise. -/
def LocalRepo.commitSignature (s : LocalRepo) : GitConfig :=
  match s.config with
  | some c => c
  | none => ⟨"ci-script (TODO: Changeme)", "changeme@parity.io"⟩

/-- Operations of `impl LocalRepo` (src/api/git.rs) that a script can reach.
Each Rust method takes `&mut self` but assigns no struct field: all
mutation goes through the shared `git2::Repository`, the filesystem, or
the network. -/
inductive RepoOp where
  | create_pr (title body head base : String)
  | checkout_remote_head (head : String)
  | checkout_new_branch (name : String)
  | checkout_new_branch_target (name target : String)
  | read_file (p : RPath)
  | write_file (p : RPath)
  | list_files
  | list_files_in_dir (p : RPath)
  | add (p : RPath)
  | add_list (ps : List RPath)
  | commit (message : String)
  | list_modified
  | push (localref remoteref : String)
  | branch (b : String)
  | status

/-- Effect of one `LocalRepo` method on the struct fields: the identity, read
off method by method from src/api/git.rs, where no method assigns
`self.dir`, `self.config`, `self.github_owner` or `self.github_name`. -/
def LocalRepo.applyOp (s : LocalRepo) (op : RepoOp) : LocalRepo :=
  match op with
  | RepoOp.create_pr _ _ _ _ => s
  | RepoOp.checkout_remote_head _ => s
  | RepoOp.checkout_new_branch _ => s
  | RepoOp.checkout_new_branch_target _ _ => s
  | RepoOp.read_file _ => s
  | RepoOp.write_file _ => s
  | RepoOp.list_files => s
  | RepoOp.list_files_in_dir _ => s
  | RepoOp.add _ => s
  | RepoOp.add_list _ => s
  | RepoOp.commit _ => s
  | RepoOp.list_modified => s
  | RepoOp.push _ _ => s
  | RepoOp.branch _ => s
  | RepoOp.status => s

/-- Folds a sequence of `LocalRepo` method calls over the struct fields. -/
def LocalRepo.applyOps (s : LocalRepo) : List RepoOp → LocalRepo
  | [] => s
  | op :: ops => LocalRepo.applyOps (s.applyOp op) ops

/-!
Embedding of `Job::repo_dir` (src/job.rs lines 136-151).
-/

/-- Identity of a Job as used by `Job::repo_dir`: repository id, issue
number, triggering user login, owner login and repository name. -/
structure JobIdent where
  repo_id : Nat
  issue_number : Nat
  user_login : String
  owner_login : String
  repo_name : String

/-- Embeds the `format!` producing the directory name in `Job::repo_dir`. -/
def Job.dir_name (j : JobIdent) : String :=
  toString j.repo_id ++ "_" ++ toString j.issue_number ++ "_" ++ j.user_login
    ++ "_" ++ j.owner_login ++ "_" ++ j.repo_name

/-- Embeds `Job::repo_dir` (src/job.rs lines 136-151): starts from the
configured repositories root and calls `PathBuf::set_file_name` with the
job's directory name. -/
def Job.repo_dir (j : JobIdent) (root : RPath) : RPath :=
  root.setFileName (Job.dir_name j)

/-!
Embedding of the queue (`src/local_queue.rs` and the `Queue` trait of
`src/lib.rs`). The indexmap `IndexMap` is embedded as an association list
in insertion order; `insert_full` follows indexmap's documented
semantics (an existing key keeps its place and has its value
overwritten; a new key is appended last) and `shift_remove_index(0)`
removes the front entry, shifting the rest.
-/

/-- Embeds `IndexMap::insert_full` on the insertion-ordered entry list. -/
def insert_full {Id Item : Type} [DecidableEq Id] (k : Id) (v : Item) :
    List (Id × Item) → List (Id × Item)
  | [] => [(k, v)]
  | e :: rest => if e.1 = k then (e.1, v) :: rest else e :: insert_full k v rest

/-- Embeds the struct `LocalQueue` of src/local_queue.rs: the ordered keyed
map plus the registered watcher channels (a watcher is identified by an
element of `W`). -/
structure LocalQueue (Id Item W : Type) where
  queue : List (Id × Item)
  watchers : List W
deriving DecidableEq

/-- Embeds `LocalQueue::new`. -/
def LocalQueue.new {Id Item W : Type} : LocalQueue Id Item W := ⟨[], []⟩

/-- Embeds `LocalQueue::register_watcher`: pushes the sender at the back of
the watcher list. -/
def LocalQueue.register_watcher {Id Item W : Type} (s : LocalQueue Id Item W)
    (w : W) : LocalQueue Id Item W :=
  { s with watchers := s.watchers ++ [w] }

/-- Embeds `LocalQueue::add` (src/local_queue.rs lines 35-42): when the
watcher list is non-empty the job is sent to `watchers.remove(0)` (the
earliest registered watcher) and the queue is untouched; otherwise the
entry goes through `insert_full`. The second result records the
delivery, `none` when the job was enqueued instead. The Rust function
returns no value (although the `Queue` trait of src/lib.rs line 12
declares `fn add(..) -> usize`). -/
def LocalQueue.add {Id Item W : Type} [DecidableEq Id] (s : LocalQueue Id Item W)
    (k : Id) (v : Item) : LocalQueue Id Item W × Option (W × Item) :=
  match s.watchers with
  | w :: ws => ({ s with watchers := ws }, some (w, v))
  | [] => ({ s with queue := insert_full k v s.queue }, none)

/-- Embeds `LocalQueue::remove` (src/local_queue.rs lines 44-50): the front
entry's value, or `None` on an empty queue. -/
def LocalQueue.remove {Id Item W : Type} (s : LocalQueue Id Item W) :
    Option Item × LocalQueue Id Item W :=
  match s.queue with
  | [] => (none, s)
  | e :: rest => (some e.2, { s with queue := rest })

/-- Embeds `LocalQueue::len`. -/
def LocalQueue.len {Id Item W : Type} (s : LocalQueue Id Item W) : Nat :=
  s.queue.length

/-- Embeds `LocalQueue::pos` via `IndexMap::get_index_of`. -/
def LocalQueue.pos {Id Item W : Type} [DecidableEq Id] (s : LocalQueue Id Item W)
    (k : Id) : Option Nat :=
  s.queue.findIdx? (fun e => e.1 = k)

/-- A queue operation of the kind claim C2 quantifies over. -/
inductive QOp (Id Item : Type) where
  | add (k : Id) (v : Item) : QOp Id Item
  | remove : QOp Id Item

/-- Runs a sequence of `add`/`remove` calls against the embedded
`LocalQueue`, collecting each `remove` result in order. -/
def runLocal {Id Item W : Type} [DecidableEq Id] :
    LocalQueue Id Item W → List (QOp Id Item) →
    LocalQueue Id Item W × List (Option Item)
  | s, [] => (s, [])
  | s, QOp.add k v :: ops => runLocal (LocalQueue.add s k v).1 ops
  | s, QOp.remove :: ops =>
    match LocalQueue.remove s with
    | (r, s') =>
      match runLocal s' ops with
      | (sf, outs) => (sf, r :: outs)

/-- Reference model for claim C2, built from the claim's words rather than
from the source: each live entry carries the time of its first `add`;
re-adding a present key overwrites the value in place; `remove` returns
the pending entry whose first-add time is least. -/
def refAdd {Id Item : Type} [DecidableEq Id] (t : Nat) (k : Id) (v : Item)
    (l : List (Nat × Id × Item)) : List (Nat × Id × Item) :=
  if l.any (fun e => e.2.1 = k) then
    l.map (fun e => if e.2.1 = k then (e.1, e.2.1, v) else e)
  else l ++ [(t, k, v)]

/-- Selects and removes the entry with the least first-add time (reference
model for claim C2). -/
def selectEarliest {Id Item : Type} :
    List (Nat × Id × Item) → Option ((Nat × Id × Item) × List (Nat × Id × Item))
  | [] => none
  | e :: rest =>
    match selectEarliest rest with
    | none => some (e, [])
    | some (m, rest') =>
      if e.1 ≤ m.1 then some (e, rest) else some (m, e :: rest')

/-- Runs a sequence of operations against the reference model of claim C2,
collecting each `remove` result in order. -/
def runRef {Id Item : Type} [DecidableEq Id] :
    Nat → List (Nat × Id × Item) → List (QOp Id Item) →
    List (Nat × Id × Item) × List (Option Item)
  | _, l, [] => (l, [])
  | t, l, QOp.add k v :: ops => runRef (t + 1) (refAdd t k v l) ops
  | t, l, QOp.remove :: ops =>
    match selectEarliest l with
    | none =>
      match runRef t l ops with
      | (lf, outs) => (lf, none :: outs)
    | some (e, l') =>
      match runRef t l' ops with
      | (lf, outs) => (lf, some e.2.2 :: outs)

/-- Projection from the reference model's entries to the queue's entries. -/
def refEntries {Id Item : Type} (l : List (Nat × Id × Item)) : List (Id × Item) :=
  l.map (fun e => (e.2.1, e.2.2))

/-- Invariant tying the embedded `LocalQueue` (no watcher registered) to the
reference model of claim C2: same entries in the same order, the
first-add times strictly increase along the list, are all below the next
fresh time, and keys are unique. -/
def QueueRel {Id Item : Type} (t : Nat) (l : List (Nat × Id × Item))
    (s : LocalQueue Id Item Unit) : Prop :=
  s.queue = refEntries l ∧ s.watchers = [] ∧
    List.Chain' (· < ·) (l.map (fun e => e.1)) ∧
    (∀ e ∈ l, e.1 < t) ∧ (l.map (fun e => e.2.1)).Nodup

/-!
Embedding of the command extraction of `src/bin/gh-webhook-reactor.rs`
(IssueComment handler, lines 139-147) and of `prepare_command`
(lines 92-115). The external shell_words crate is embedded by its
documented behavior; Rust's `str::split_once` and `str::split(" ")` are
embedded on character lists.
-/

/-- Embeds Rust `str::split_once` with a character pattern: the pieces
before and after the first occurrence, or `none` when absent. -/
def splitOnceChar (c : Char) : List Char → Option (List Char × List Char)
  | [] => none
  | x :: xs =>
    if x = c then some ([], xs)
    else (splitOnceChar c xs).map (fun p => (x :: p.1, p.2))

/-- Embeds Rust `str::split` with a single-character pattern: splits at every
occurrence, keeping empty pieces between consecutive separators. -/
def splitChar (sep : Char) : List Char → List (List Char)
  | [] => [[]]
  | c :: rest =>
    match splitChar sep rest with
    | [] => [[]]
    | w :: ws => if c = sep then [] :: w :: ws else (c :: w) :: ws

/-- Tokenizer state of the shell-words model: outside quotes, inside single
quotes, or inside double quotes. -/
inductive SMode where
  | norm
  | single
  | double

/-- Closes the word under construction, if any (shell-words model helper). -/
def pushCur (cur : Option (List Char)) (acc : List (List Char)) :
    List (List Char) :=
  match cur with
  | some w => w :: acc
  | none => acc

/-- Worker of the shell-words model: words accumulate in reverse in `acc`;
`cur` is the word under construction (`some []` after an opening quote,
so quoted empty words count). -/
def shellSplitGo : List Char → SMode → Option (List Char) → List (List Char) →
    Option (List (List Char))
  | [], SMode.norm, cur, acc => some (pushCur cur acc).reverse
  | [], SMode.single, _, _ => none
  | [], SMode.double, _, _ => none
  | c :: rest, SMode.norm, cur, acc =>
    if c = ' ' ∨ c = '\t' ∨ c = '\n' ∨ c = '\r' then
      shellSplitGo rest SMode.norm none (pushCur cur acc)
    else if c = '\'' then shellSplitGo rest SMode.single (some (cur.getD [])) acc
    else if c = '"' then shellSplitGo rest SMode.double (some (cur.getD [])) acc
    else if c = '\\' then
      match rest with
      | [] => none
      | d :: rest' => shellSplitGo rest' SMode.norm (some (cur.getD [] ++ [d])) acc
    else shellSplitGo rest SMode.norm (some (cur.getD [] ++ [c])) acc
  | c :: rest, SMode.single, cur, acc =>
    if c = '\'' then shellSplitGo rest SMode.norm cur acc
    else shellSplitGo rest SMode.single (some (cur.getD [] ++ [c])) acc
  | c :: rest, SMode.double, cur, acc =>
    if c = '"' then shellSplitGo rest SMode.norm cur acc
    else if c = '\\' then
      match rest with
      | [] => none
      | d :: rest' => shellSplitGo rest' SMode.double (some (cur.getD [] ++ [d])) acc
    else shellSplitGo rest SMode.double (some (cur.getD [] ++ [c])) acc

/-- Model of the external shell_words crate's `split`, by its documented
behavior: whitespace separates words, single and double quotes group,
backslash escapes the next character, and an unbalanced quote or
trailing backslash is a parse error (`none`). -/
def shellSplit (s : String) : Option (List String) :=
  (shellSplitGo s.data SMode.norm none []).map (fun ws => ws.map String.mk)

/-- Embeds the command extraction of the IssueComment handler
(src/bin/gh-webhook-reactor.rs lines 139-147): when the body contains a
newline, the text before it is shell-word split, and a parse failure
panics via `.expect` (embedded as `none`); when the body contains no
newline, `split_once` returns `None` and the `unwrap_or_else` fallback
splits the whole body on single spaces. -/
def extractCommand (body : String) : Option (List String) :=
  match splitOnceChar '\n' body.data with
  | some (cmd, _) => shellSplit (String.mk cmd)
  | none => some ((splitChar ' ' body.data).map String.mk)

/-- First line of the body in the claim's sense: the text up to the first
newline, or the whole body when there is none. -/
def claimFirstLine (body : String) : String :=
  match splitOnceChar '\n' body.data with
  | some (cmd, _) => String.mk cmd
  | none => body

/-- Whitespace splitting (empty pieces dropped), the claim's fallback
tokenization. -/
def whitespaceSplit (s : String) : List String :=
  ((splitChar ' ' s.data).filter (fun w => ¬ w.isEmpty)).map String.mk

/-- The command extraction as claim C3 words it (second definition, built
from the claim, to be compared with `extractCommand`): the first line is
shell-word tokenized, and whenever shell-word parsing fails the command
is whitespace split instead. -/
def claimedCommand (body : String) : List String :=
  match shellSplit (claimFirstLine body) with
  | some toks => toks
  | none => whitespaceSplit (claimFirstLine body)

/-- Embeds Rust `str::strip_prefix('/')` as used in `prepare_command`: one
leading slash removed when present. -/
def stripSlash (s : String) : String :=
  match s.data with
  | '/' :: rest => String.mk rest
  | _ => s

/-- Embeds Rust `Path::join` at the string level for Unix paths in valid
UTF-8 (as `prepare_command` converts the joined path back with
`to_string_lossy`): an absolute argument replaces the base; otherwise a
separator is inserted unless the base is empty or already ends in one. -/
def pathJoinStr (a b : String) : String :=
  if b.data.head? = some '/' then b
  else if a.data = [] then b
  else if a.data.getLast? = some '/' then a ++ b
  else a ++ "/" ++ b

/-- Embeds `prepare_command` (src/bin/gh-webhook-reactor.rs lines 92-115):
the first token, stripped of one leading slash, is the script directory;
the second token plus `.rhai` is the file; the stored command is
`.github` joined with both, followed by the remaining tokens. Fewer than
two tokens yield the missing-command error, and the handler then drops
the event without enqueueing a Job. -/
def prepare_command (command : List String) : Except String (List String) :=
  match command with
  | t0 :: t1 :: rest =>
    Except.ok
      (pathJoinStr (pathJoinStr ".github" (stripSlash t0)) (t1 ++ ".rhai") :: rest)
  | _ => Except.error "Missing bot command"

/-- The stored command as claim C4 words it (second definition, built from
the claim, to be compared with `prepare_command`). -/
def claimedStored (t0 t1 : String) (rest : List String) : List String :=
  (".github/" ++ stripSlash t0 ++ "/" ++ t1 ++ ".rhai") :: rest

/-!
Embedding of `src/api/cargo.rs` and of the `cargo <expr>` custom syntax
registered in `CheckedoutJob::prepare_engine` (src/job.rs lines 172-185).
-/

/-- Embeds the struct `Run` of src/api/cargo.rs. -/
structure Run where
  args : List String
  dir : RPath

/-- Embeds `Run::new`. -/
def Run.new (args : List String) (dir : RPath) : Run := ⟨args, dir⟩

/-- Configuration of the std::process::Command that `Run::run` builds:
program name, whether `env_clear()` was called, whether stdin is null,
the argument vector and the `current_dir` setting (`none` means the
subprocess inherits the worker process's working directory). -/
structure SpawnSpec where
  program : String
  env_cleared : Bool
  stdin_null : Bool
  args : List String
  current_dir : Option RPath
deriving DecidableEq

/-- Embeds the Command construction in `Run::run` (src/api/cargo.rs lines
15-34): `Command::new("cargo").env_clear().stdin(Stdio::null()).args(self.args)`.
No `current_dir` call appears in the source, so the stored `self.dir` is
never passed to the subprocess. -/
def Run.command (r : Run) : SpawnSpec :=
  { program := "cargo", env_cleared := true, stdin_null := true,
    args := r.args, current_dir := none }

/-- Captured output of a successfully spawned subprocess. -/
structure SpawnOutput where
  status_code : Option Int
  stdout : String
  stderr : String

/-- Embeds the struct `CargoResult` of src/api/cargo.rs. -/
structure CargoResult where
  exit_code : Option Int
  stdout : String
  stderr : String

/-- Embeds `CargoResult::is_ok`: `exit_code == Some(0)`. -/
def CargoResult.is_ok (r : CargoResult) : Bool :=
  decide (r.exit_code = some 0)

/-- Embeds the result construction of `Run::run` (src/api/cargo.rs lines
15-34) as a function of the spawn outcome: on success the captured
output, on a spawn error exit code -1, empty stdout, and a stderr
carrying the error text. -/
def Run.runResult (res : Except String SpawnOutput) : CargoResult :=
  match res with
  | Except.ok o => ⟨o.status_code, o.stdout, o.stderr⟩
  | Except.error e => ⟨some (-1), "", "Error executing cargo: " ++ e⟩

/-- Embeds the `cargo <expr>` custom syntax of
`CheckedoutJob::prepare_engine` (src/job.rs lines 172-185): the
evaluated string is shell-word split into the argument vector and a
`Run` in the checkout directory is built; the resulting spawn request is
returned (a split failure is a script error). -/
def cargoSyntax (value : String) (cargo_dir : RPath) : Except String SpawnSpec :=
  match shellSplit value with
  | none => Except.error "Failed to parse `cargo` arguments"
  | some argv => Except.ok (Run.command (Run.new argv cargo_dir))

/-!
Embedding of `toml::replace_path_dependencies_with_git`
(src/api/rhai.rs lines 17-52) over the toml_edit document model: a
document is an ordered table of items; items are values (strings, inline
tables or other scalars), tables, arrays of tables, or none.
-/

/-- Embeds toml_edit `Value` at the granularity the rewriter inspects. -/
inductive TomlVal where
  | str (s : String)
  | scalar
  | inlineTable (entries : List (String × TomlVal))

/-- Embeds toml_edit `Item` at the granularity the rewriter inspects. -/
inductive TomlItem where
  | value (v : TomlVal)
  | table (entries : List (String × TomlItem))
  | arrayOfTables
  | noneItem

/-- Key lookup test on an ordered table. -/
def assocHas {α : Type} (k : String) : List (String × α) → Bool
  | [] => false
  | e :: rest => if e.1 = k then true else assocHas k rest

/-- Embeds toml_edit table `remove_entry`: drops the entry with the key. -/
def assocRemove {α : Type} (k : String) : List (String × α) → List (String × α)
  | [] => []
  | e :: rest => if e.1 = k then rest else e :: assocRemove k rest

/-- Embeds toml_edit table `insert`: an existing key keeps its position and
has its value replaced; a new key is appended last. -/
def assocInsert {α : Type} (k : String) (v : α) :
    List (String × α) → List (String × α)
  | [] => [(k, v)]
  | e :: rest => if e.1 = k then (e.1, v) :: rest else e :: assocInsert k v rest

/-- Embeds the per-dependency body of the rewriter: a `Table` or an inline
table with a `path` key has it removed and `git`/`branch` inserted; any
other item is left untouched (the `_ => continue` arms). -/
def processDep (url branch : String) : TomlItem → TomlItem
  | TomlItem.table dep =>
    if assocHas "path" dep then
      TomlItem.table
        (assocInsert "branch" (TomlItem.value (TomlVal.str branch))
          (assocInsert "git" (TomlItem.value (TomlVal.str url))
            (assocRemove "path" dep)))
    else TomlItem.table dep
  | TomlItem.value (TomlVal.inlineTable dep) =>
    if assocHas "path" dep then
      TomlItem.value (TomlVal.inlineTable
        (assocInsert "branch" (TomlVal.str branch)
          (assocInsert "git" (TomlVal.str url)
            (assocRemove "path" dep))))
    else TomlItem.value (TomlVal.inlineTable dep)
  | it => it

/-- Embeds one step of the inner `deps.iter_mut()` loop: the named
dependency's item is processed in place. -/
def processDepEntry (url branch : String) (d : String × TomlItem) :
    String × TomlItem :=
  (d.1, processDep url branch d.2)

/-- Embeds the effect of one iteration of the outer loop on one document
entry: the entry under the processed table's name, when it is an
`Item::Table`, has every dependency processed in place; a vacant entry
or any other item kind is skipped (`continue`). -/
def processEntry (url branch tname : String) (e : String × TomlItem) :
    String × TomlItem :=
  if e.1 = tname then
    match e.2 with
    | TomlItem.table deps => (e.1, TomlItem.table (deps.map (processDepEntry url branch)))
    | it => (e.1, it)
  else e

/-- Embeds one iteration of the outer loop over the whole document. -/
def processDocTable (url branch tname : String)
    (doc : List (String × TomlItem)) : List (String × TomlItem) :=
  doc.map (processEntry url branch tname)

/-- Embeds `toml::replace_path_dependencies_with_git`
(src/api/rhai.rs lines 17-52) on the parsed document: the three
dependency tables are processed in order. Parsing and re-serialization
of the byte input are outside the document model. -/
def replace_path_dependencies_with_git (doc : List (String × TomlItem))
    (url branch : String) : List (String × TomlItem) :=
  processDocTable url branch "dev-dependencies"
    (processDocTable url branch "build-dependencies"
      (processDocTable url branch "dependencies" doc))

/-- Tests whether a dependency entry is a table or inline table with a
`path` key (the entries the rewriter modifies). -/
def depHasPath : TomlItem → Bool
  | TomlItem.table dep => assocHas "path" dep
  | TomlItem.value (TomlVal.inlineTable dep) => assocHas "path" dep
  | _ => false

/-- Tests whether an item is a table containing a path dependency. -/
def tableHasPathDep : TomlItem → Bool
  | TomlItem.table deps => deps.any (fun d => depHasPath d.2)
  | _ => false

/-- Tests whether any of the three dependency tables of the document
contains a table or inline-table entry with a `path` key (claim C9's
hypothesis). -/
def hasPathDep (doc : List (String × TomlItem)) : Bool :=
  doc.any (fun e =>
    (e.1 = "dependencies" ∨ e.1 = "build-dependencies" ∨ e.1 = "dev-dependencies")
      && tableHasPathDep e.2)

/-!
Theorems. Helper lemmas come first, then one theorem per claim.
-/

/-- Helper for C10: no `LocalRepo` method assigns a struct field, so any
sequence of method calls leaves the embedded fields unchanged. -/
theorem LocalRepo.applyOps_eq (s : LocalRepo) (ops : List RepoOp) :
    LocalRepo.applyOps s ops = s := by
  induction ops generalizing s with
  | nil => rfl
  | cons op ops ih =>
    have h : s.applyOp op = s := by cases op <;> rfl
    simp only [LocalRepo.applyOps, h, ih]

/-- C1: the claim says every `repo.write(p, bytes)` target lies inside the
checkout or the operation fails with a path-escape error; the code only
rejects `..` components, so an absolute path such as `/tmp/evil` passes
the check and `Path::join` discards the checkout directory: the write
goes to `/tmp/evil`, outside the checkout rooted at `/srv/checkout`. -/
theorem c1_write_file_escapes_checkout :
    LocalRepo.write_file
        (LocalRepo.new ⟨true, [PComp.normal "srv", PComp.normal "checkout"]⟩ "o" "r")
        ⟨true, [PComp.normal "tmp", PComp.normal "evil"]⟩
      = Except.ok ⟨true, [PComp.normal "tmp", PComp.normal "evil"]⟩
    ∧ RPath.startsWith ⟨true, [PComp.normal "tmp", PComp.normal "evil"]⟩
        ⟨true, [PComp.normal "srv", PComp.normal "checkout"]⟩ = false :=
  ⟨rfl, rfl⟩

/-- C5: the claim says the checkout working directory equals the configured
repositories root joined with the child name
`<repo_id>_<issue>_<user>_<owner>_<repo>`; `Job::repo_dir` instead calls
`PathBuf::set_file_name`, which replaces the root's final component: for
the default root `./repos` and a job (42, 7, u, o, r) the result is
`./42_7_u_o_r`, a sibling of the root, not beneath it. -/
theorem c5_repo_dir_escapes_root :
    Job.repo_dir ⟨42, 7, "u", "o", "r"⟩ ⟨false, [PComp.curDir, PComp.normal "repos"]⟩
      = ⟨false, [PComp.curDir, PComp.normal "42_7_u_o_r"]⟩
    ∧ RPath.startsWith
        (Job.repo_dir ⟨42, 7, "u", "o", "r"⟩ ⟨false, [PComp.curDir, PComp.normal "repos"]⟩)
        ⟨false, [PComp.curDir, PComp.normal "repos"]⟩ = false
    ∧ Job.repo_dir ⟨42, 7, "u", "o", "r"⟩ ⟨false, [PComp.curDir, PComp.normal "repos"]⟩
      ≠ RPath.join ⟨false, [PComp.curDir, PComp.normal "repos"]⟩
          ⟨false, [PComp.normal "42_7_u_o_r"]⟩ := by
  decide

/-- C6: the claim says the `cargo <expr>` subprocess runs with the Job's
checkout directory as its working directory; `Run::run` configures
`env_clear`, a null stdin and the shell-split argv, but never calls
`current_dir`, so the subprocess inherits the worker process's working
directory instead of the checkout `/srv/checkout`. -/
theorem c6_cargo_inherits_cwd :
    cargoSyntax "build --offline" ⟨true, [PComp.normal "srv", PComp.normal "checkout"]⟩
      = Except.ok ⟨"cargo", true, true, ["build", "--offline"], none⟩
    ∧ (Run.command (Run.new ["build", "--offline"]
        ⟨true, [PComp.normal "srv", PComp.normal "checkout"]⟩)).current_dir
      ≠ some ⟨true, [PComp.normal "srv", PComp.normal "checkout"]⟩ :=
  ⟨rfl, by decide⟩

/-- C7: when spawning `cargo` fails, `Run::run` still yields a `CargoResult`
with exit code -1, empty stdout and non-empty stderr, and `is_ok()`
returns false. -/
theorem c7_spawn_failure_yields_result (e : String) :
    (Run.runResult (Except.error e)).exit_code = some (-1)
    ∧ (Run.runResult (Except.error e)).stdout = ""
    ∧ (Run.runResult (Except.error e)).stderr ≠ ""
    ∧ (Run.runResult (Except.error e)).is_ok = false := by
  refine ⟨rfl, rfl, ?_, rfl⟩
  intro h
  have hlen : ("Error executing cargo: " ++ e).length = ("" : String).length :=
    congrArg String.length h
  rw [String.length_append] at hlen
  have h23 : ("Error executing cargo: ").length = 23 := rfl
  have h0 : ("" : String).length = 0 := rfl
  omega

/-- C8: with watchers registered (here two, in registration order 1 then 2)
and an empty queue, `add("k", 99)` hands the job to the earliest
registered watcher 1 without enqueueing, leaving `len() = 0` and
`pos("k") = None`. The further clause of the claim, that `add` reports
the position that would have been used, has no counterpart in the code:
`LocalQueue::add` returns `()` and computes no position, although the
`Queue` trait it implements (src/lib.rs line 12) declares
`fn add(..) -> usize`. -/
theorem c8_watcher_short_circuit :
    LocalQueue.register_watcher (LocalQueue.register_watcher
        (LocalQueue.new : LocalQueue String Nat Nat) 1) 2 = ⟨[], [1, 2]⟩
    ∧ LocalQueue.add (⟨[], [1, 2]⟩ : LocalQueue String Nat Nat) "k" 99
      = (⟨[], [2]⟩, some (1, 99))
    ∧ LocalQueue.len (⟨[], [2]⟩ : LocalQueue String Nat Nat) = 0
    ∧ LocalQueue.pos (⟨[], [2]⟩ : LocalQueue String Nat Nat) "k" = none := by
  decide

/-- C10: both constructors leave the identity `config` at `None`, no method
ever assigns it, and `commit` therefore always signs with the hard-coded
author and committer identity "ci-script (TODO: Changeme)"
/ "changeme@parity.io". -/
theorem c10_commit_identity (dir : RPath) (owner rname head : String)
    (ops opsW : List RepoOp) :
    (LocalRepo.applyOps (LocalRepo.new dir owner rname) ops).config = none
    ∧ LocalRepo.commitSignature (LocalRepo.applyOps (LocalRepo.new dir owner rname) ops)
      = ⟨"ci-script (TODO: Changeme)", "changeme@parity.io"⟩
    ∧ (LocalRepo.applyOps (LocalRepo.with_repo dir owner rname head) opsW).config = none
    ∧ LocalRepo.commitSignature
        (LocalRepo.applyOps (LocalRepo.with_repo dir owner rname head) opsW)
      = ⟨"ci-script (TODO: Changeme)", "changeme@parity.io"⟩ := by
  rw [LocalRepo.applyOps_eq, LocalRepo.applyOps_eq]
  exact ⟨rfl, rfl, rfl, rfl⟩

/-- Helper: `split_once` misses an absent character. -/
theorem splitOnceChar_of_not_mem (c : Char) (l : List Char) (h : c ∉ l) :
    splitOnceChar c l = none := by
  induction l with
  | nil => rfl
  | cons x xs ih =>
    have hx : ¬ x = c := fun he => h (by rw [he]; exact List.mem_cons_self c xs)
    rw [splitOnceChar, if_neg hx, ih (fun hm => h (List.mem_cons_of_mem x hm))]
    rfl

/-- Helper: `split_once` cuts at the first occurrence of the character. -/
theorem splitOnceChar_append (c : Char) (a b : List Char) (h : c ∉ a) :
    splitOnceChar c (a ++ c :: b) = some (a, b) := by
  induction a with
  | nil => simp [splitOnceChar]
  | cons x xs ih =>
    have hx : ¬ x = c := fun he => h (by rw [he]; exact List.mem_cons_self c xs)
    rw [List.cons_append, splitOnceChar, if_neg hx,
      ih (fun hm => h (List.mem_cons_of_mem x hm))]
    rfl

/-- C3 counterexample: the body `/benchbot bench "a b"` starts with the
default command prefix and contains no newline; the claim says it is
shell-word tokenized (giving the quoted token `a b`), but the code
reaches the `unwrap_or_else` fallback and splits the whole body on
single spaces, breaking the quoted token apart. -/
theorem c3_counterexample :
    extractCommand "/benchbot bench \"a b\""
      = some ["/benchbot", "bench", "\"a", "b\""]
    ∧ claimedCommand "/benchbot bench \"a b\"" = ["/benchbot", "bench", "a b"]
    ∧ extractCommand "/benchbot bench \"a b\""
      ≠ some (claimedCommand "/benchbot bench \"a b\"") := by
  decide

/-- C3 amended: for a body that starts with the command prefix, when the
body contains no newline the command is the whole body split on single
space characters (no shell-word tokenization); when the body has a first
line before a newline, the command is that line shell-word tokenized,
and a parse failure panics (modelled `none`) instead of falling back. -/
theorem c3_first_line_tokenization (p body : String) (hp : p.data <+: body.data) :
    (('\n' ∉ body.data) →
      extractCommand body = some ((splitChar ' ' body.data).map String.mk))
    ∧ (∀ pre post : String, body = pre ++ "\n" ++ post → '\n' ∉ pre.data →
      extractCommand body = shellSplit pre) := by
  constructor
  · intro hnl
    unfold extractCommand
    rw [splitOnceChar_of_not_mem '\n' body.data hnl]
  · intro pre post hbody hnl
    have hdata : body.data = pre.data ++ '\n' :: post.data := by
      rw [hbody, String.data_append, String.data_append, List.append_assoc]
      rfl
    unfold extractCommand
    rw [hdata, splitOnceChar_append '\n' pre.data post.data hnl]

/-- C3 witness: the no-newline case at `/benchbot a  b` (note the doubled
space kept as an empty token) and the newline case at `/benchbot x`
followed by a second line. -/
theorem c3_first_line_tokenization_witness :
    extractCommand "/benchbot a  b" = some ["/benchbot", "a", "", "b"]
    ∧ extractCommand "/benchbot x\ny" = shellSplit "/benchbot x" := by
  constructor
  · exact ((c3_first_line_tokenization "/benchbot" "/benchbot a  b"
      (by decide)).1 (by decide)).trans (by decide)
  · exact (c3_first_line_tokenization "/benchbot" "/benchbot x\ny"
      (by decide)).2 "/benchbot x" "y" (by decide) (by decide)

/-- Helper: the head survives an append when the left part is non-empty,
so a leading slash can only come from one of the two parts. -/
theorem headq_append_ne (l l' : List Char) (h : l.head? ≠ some '/')
    (h' : l'.head? ≠ some '/') : (l ++ l').head? ≠ some '/' := by
  cases l with
  | nil => simpa using h'
  | cons x xs => simpa using h

/-- C4 counterexample: for the tokens `/benchbot /bench` (reachable, e.g.
from the comment body `/benchbot /bench`), the second token begins with
a slash, so `Path::join` treats `/bench.rhai` as absolute and discards
the `.github/benchbot` base: the stored command is `/bench.rhai`, not
the claim's `.github/benchbot//bench.rhai`. -/
theorem c4_counterexample :
    prepare_command ["/benchbot", "/bench"] = Except.ok ["/bench.rhai"]
    ∧ claimedStored "/benchbot" "/bench" [] = [".github/benchbot//bench.rhai"]
    ∧ prepare_command ["/benchbot", "/bench"]
      ≠ Except.ok (claimedStored "/benchbot" "/bench" []) := by
  refine ⟨rfl, by decide, ?_⟩
  intro h
  have h2 := congrArg (fun x => match x with
    | Except.ok (s :: _) => s.data
    | _ => []) h
  simp only at h2
  exact absurd h2 (by decide)

/-- C4 amended: when the first token stripped of one leading slash is
non-empty and neither begins nor ends with a slash, and the second token
does not begin with a slash, the stored command is exactly
`[".github/" ++ stripped-first ++ "/" ++ second ++ ".rhai"]` followed by
the remaining tokens unchanged (when a component begins with a slash,
`Path::join` instead makes the script path absolute, discarding the
`.github` base). A command with fewer than two tokens is rejected with
the missing-command error and no Job is enqueued. -/
theorem c4_stored_command (t0 t1 : String) (rest : List String)
    (h1 : stripSlash t0 ≠ "")
    (h2 : (stripSlash t0).data.head? ≠ some '/')
    (h3 : (stripSlash t0).data.getLast? ≠ some '/')
    (h4 : t1.data.head? ≠ some '/') :
    prepare_command (t0 :: t1 :: rest) = Except.ok (claimedStored t0 t1 rest)
    ∧ prepare_command [] = Except.error "Missing bot command"
    ∧ ∀ t : String, prepare_command [t] = Except.error "Missing bot command" := by
  have hd : (stripSlash t0).data ≠ [] := fun hE => h1 (String.ext hE)
  have hinner : pathJoinStr ".github" (stripSlash t0)
      = ".github" ++ "/" ++ stripSlash t0 := by
    unfold pathJoinStr
    rw [if_neg h2, if_neg (by decide : ¬(".github".data = [])),
      if_neg (by decide : ¬(".github".data.getLast? = some '/'))]
  have hb : (t1 ++ ".rhai").data.head? ≠ some '/' := by
    rw [String.data_append]
    exact headq_append_ne _ _ h4 (by decide)
  have ha1 : (".github" ++ "/" ++ stripSlash t0).data ≠ [] := by
    rw [String.data_append]
    intro hE
    exact hd (List.append_eq_nil.mp hE).2
  have ha2 : (".github" ++ "/" ++ stripSlash t0).data.getLast? ≠ some '/' := by
    rw [String.data_append, List.getLast?_append_of_ne_nil _ hd]
    exact h3
  have houter : pathJoinStr (".github" ++ "/" ++ stripSlash t0) (t1 ++ ".rhai")
      = (".github" ++ "/" ++ stripSlash t0) ++ "/" ++ (t1 ++ ".rhai") := by
    unfold pathJoinStr
    rw [if_neg hb, if_neg ha1, if_neg ha2]
  have hstr : (".github" ++ "/" ++ stripSlash t0) ++ "/" ++ (t1 ++ ".rhai")
      = ".github/" ++ stripSlash t0 ++ "/" ++ t1 ++ ".rhai" := by
    apply String.ext
    simp only [String.data_append]
    simp [List.append_assoc]
  refine ⟨?_, rfl, fun t => rfl⟩
  show Except.ok
      (pathJoinStr (pathJoinStr ".github" (stripSlash t0)) (t1 ++ ".rhai") :: rest)
    = Except.ok ((".github/" ++ stripSlash t0 ++ "/" ++ t1 ++ ".rhai") :: rest)
  rw [hinner, houter, hstr]

/-- C4 witness: the spec's scenario 1, `/benchbot bench runtimes --fast`,
maps to the stored command
`[".github/benchbot/bench.rhai", "runtimes", "--fast"]`, and short
commands are rejected. -/
theorem c4_stored_command_witness :
    prepare_command ["/benchbot", "bench", "runtimes", "--fast"]
      = Except.ok [".github/benchbot/bench.rhai", "runtimes", "--fast"]
    ∧ prepare_command ["/benchbot"] = Except.error "Missing bot command" := by
  constructor
  · exact ((c4_stored_command "/benchbot" "bench" ["runtimes", "--fast"]
      (by decide) (by decide) (by decide) (by decide)).1).trans
      (congrArg Except.ok (by decide))
  · exact (c4_stored_command "/benchbot" "bench" []
      (by decide) (by decide) (by decide) (by decide)).2.2 "/benchbot"

/-- Helper for C9: a dependency entry without a `path` key is left untouched
by the rewriter, as is any non-table dependency spec. -/
theorem processDep_id (url branch : String) (it : TomlItem)
    (h : depHasPath it = false) : processDep url branch it = it := by
  cases it with
  | table dep =>
    have hp : ¬ assocHas "path" dep = true := by
      simpa [depHasPath] using h
    simp [processDep, hp]
  | value v =>
    cases v with
    | str s => rfl
    | scalar => rfl
    | inlineTable dep =>
      have hp : ¬ assocHas "path" dep = true := by
        simpa [depHasPath] using h
      simp [processDep, hp]
  | arrayOfTables => rfl
  | noneItem => rfl

/-- Helper for C9: one document entry is left untouched when it is not a
path-carrying dependency table under the processed name. -/
theorem processEntry_id (url branch tname : String) (e : String × TomlItem)
    (h : e.1 = tname → tableHasPathDep e.2 = false) :
    processEntry url branch tname e = e := by
  obtain ⟨k, it⟩ := e
  by_cases he : k = tname
  · cases it with
    | table deps =>
      have htab : tableHasPathDep (TomlItem.table deps) = false := h he
      have hdeps : ∀ a : String, ∀ b : TomlItem, (a, b) ∈ deps →
          depHasPath b = false := by
        have h' := htab
        simpa [tableHasPathDep] using h'
      have hmap : deps.map (processDepEntry url branch) = deps := by
        have hcg : deps.map (processDepEntry url branch) = deps.map id :=
          List.map_congr_left (fun d hd => by
            show (d.1, processDep url branch d.2) = d
            rw [processDep_id url branch d.2 (hdeps d.1 d.2 hd)])
        rw [hcg, List.map_id]
      have hgoal : processEntry url branch tname (k, TomlItem.table deps)
          = (k, TomlItem.table (deps.map (processDepEntry url branch))) := by
        unfold processEntry
        rw [if_pos he]
      rw [hgoal, hmap]
    | value v => unfold processEntry; rw [if_pos he]
    | arrayOfTables => unfold processEntry; rw [if_pos he]
    | noneItem => unfold processEntry; rw [if_pos he]
  · unfold processEntry
    rw [if_neg he]

/-- Helper for C9: processing one dependency table is the identity when no
entry of that table carries a `path` key. -/
theorem processDocTable_id (url branch tname : String)
    (doc : List (String × TomlItem))
    (h : ∀ e ∈ doc, e.1 = tname → tableHasPathDep e.2 = false) :
    processDocTable url branch tname doc = doc := by
  unfold processDocTable
  have hcg : doc.map (processEntry url branch tname) = doc.map id :=
    List.map_congr_left (fun e he => by
      rw [processEntry_id url branch tname e (h e he)]; rfl)
  rw [hcg, List.map_id]

/-- C9: on a document none of whose `dependencies`, `build-dependencies` or
`dev-dependencies` tables contains a table or inline-table entry with a
`path` key, `replace_path_dependencies_with_git` is the identity on the
parsed document (the claim's "unchanged modulo re-serialization"). -/
theorem c9_no_path_deps_noop (doc : List (String × TomlItem))
    (url branch : String) (h : hasPathDep doc = false) :
    replace_path_dependencies_with_git doc url branch = doc := by
  have key : ∀ tname : String,
      (tname = "dependencies" ∨ tname = "build-dependencies" ∨
        tname = "dev-dependencies") →
      ∀ e ∈ doc, e.1 = tname → tableHasPathDep e.2 = false := by
    intro tname htn e he het
    have hone := List.any_eq_false.mp h e he
    have hcond : (e.1 = "dependencies" ∨ e.1 = "build-dependencies" ∨
        e.1 = "dev-dependencies") := by rw [het]; exact htn
    cases hbool : tableHasPathDep e.2 with
    | false => rfl
    | true =>
      exact absurd (by rw [hbool, Bool.and_true]; exact decide_eq_true hcond) hone
  unfold replace_path_dependencies_with_git
  rw [processDocTable_id _ _ _ _ (key "dependencies" (Or.inl rfl)),
    processDocTable_id _ _ _ _ (key "build-dependencies" (Or.inr (Or.inl rfl))),
    processDocTable_id _ _ _ _ (key "dev-dependencies" (Or.inr (Or.inr rfl)))]

/-- C9 witness: a document with a `package` table and a `dependencies` table
holding a plain version string and an inline table without a `path` key
is returned unchanged. -/
theorem c9_no_path_deps_noop_witness :
    replace_path_dependencies_with_git
      [("package", TomlItem.table [("name", TomlItem.value (TomlVal.str "x"))]),
        ("dependencies", TomlItem.table
          [("serde", TomlItem.value (TomlVal.str "1.0")),
            ("local", TomlItem.value
              (TomlVal.inlineTable [("version", TomlVal.str "0.1")]))])]
      "https://github.com/o/r" "main"
    = [("package", TomlItem.table [("name", TomlItem.value (TomlVal.str "x"))]),
        ("dependencies", TomlItem.table
          [("serde", TomlItem.value (TomlVal.str "1.0")),
            ("local", TomlItem.value
              (TomlVal.inlineTable [("version", TomlVal.str "0.1")]))])] :=
  c9_no_path_deps_noop _ "https://github.com/o/r" "main" rfl

section QueueProofs

variable {Id Item : Type} [DecidableEq Id]

/-- Helper for C2: re-adding a key absent from the reference model appends. -/
theorem refAdd_of_not_any (t : Nat) (k : Id) (v : Item)
    (l : List (Nat × Id × Item)) (h : ¬ l.any (fun e => e.2.1 = k) = true) :
    refAdd t k v l = l ++ [(t, k, v)] := by
  unfold refAdd
  rw [if_neg h]

/-- Helper for C2: a key absent from the reference model is absent from its
key list. -/
theorem not_mem_keys_of_not_any (k : Id) (l : List (Nat × Id × Item))
    (h : ¬ l.any (fun e => e.2.1 = k) = true) :
    k ∉ l.map (fun e => e.2.1) := by
  intro hk
  obtain ⟨e, he, hek⟩ := List.mem_map.mp hk
  exact h (List.any_eq_true.mpr ⟨e, he, by simp [hek]⟩)

/-- Helper for C2: the first-add times are untouched when the key is
present, since only the value component is overwritten. -/
theorem map_fst_refAdd_pos (t : Nat) (k : Id) (v : Item)
    (l : List (Nat × Id × Item)) (h : l.any (fun e => e.2.1 = k) = true) :
    (refAdd t k v l).map (fun e => e.1) = l.map (fun e => e.1) := by
  unfold refAdd
  rw [if_pos h, List.map_map]
  apply List.map_congr_left
  intro e he
  by_cases h2 : e.2.1 = k <;> simp [h2]

/-- Helper for C2: the keys are untouched when the key is present. -/
theorem map_key_refAdd_pos (t : Nat) (k : Id) (v : Item)
    (l : List (Nat × Id × Item)) (h : l.any (fun e => e.2.1 = k) = true) :
    (refAdd t k v l).map (fun e => e.2.1) = l.map (fun e => e.2.1) := by
  unfold refAdd
  rw [if_pos h, List.map_map]
  apply List.map_congr_left
  intro e he
  by_cases h2 : e.2.1 = k <;> simp [h2]

/-- Helper for C2: a head entry with a different key passes through
`refAdd`. -/
theorem refAdd_cons_ne (t : Nat) (k : Id) (v : Item) (e : Nat × Id × Item)
    (rest : List (Nat × Id × Item)) (hek : ¬ e.2.1 = k) :
    refAdd t k v (e :: rest) = e :: refAdd t k v rest := by
  unfold refAdd
  simp only [List.any_cons, decide_eq_false hek, Bool.false_or]
  by_cases hr : rest.any (fun x => decide (x.2.1 = k)) = true
  · rw [if_pos hr, if_pos hr, List.map_cons, if_neg hek]
  · rw [if_neg hr, if_neg hr, List.cons_append]

/-- Helper for C2: the projection of the reference model commutes with
`insert_full`, given unique keys. -/
theorem refEntries_refAdd (t : Nat) (k : Id) (v : Item)
    (l : List (Nat × Id × Item)) (hnd : (l.map (fun e => e.2.1)).Nodup) :
    refEntries (refAdd t k v l) = insert_full k v (refEntries l) := by
  induction l with
  | nil => rfl
  | cons e rest ih =>
    by_cases hek : e.2.1 = k
    · have hany : (e :: rest).any (fun x => x.2.1 = k) = true :=
        List.any_eq_true.mpr ⟨e, List.mem_cons_self e rest, by simp [hek]⟩
      have hrest : ∀ x ∈ rest, ¬ x.2.1 = k := by
        intro x hx hxk
        have hnotin := (List.nodup_cons.mp hnd).1
        apply hnotin
        show e.2.1 ∈ List.map (fun y => y.2.1) rest
        rw [hek]
        exact List.mem_map.mpr ⟨x, hx, hxk⟩
      have hmap : rest.map
          (fun x => if x.2.1 = k then (x.1, x.2.1, v) else x) = rest := by
        have hcg := List.map_congr_left (l := rest)
          (f := fun x => if x.2.1 = k then (x.1, x.2.1, v) else x) (g := id)
          (fun x hx => by
            show (if x.2.1 = k then (x.1, x.2.1, v) else x) = id x
            rw [if_neg (hrest x hx)]
            rfl)
        rw [hcg, List.map_id]
      unfold refAdd
      rw [if_pos hany, List.map_cons, if_pos hek, hmap]
      show refEntries ((e.1, e.2.1, v) :: rest)
        = insert_full k v ((e.2.1, e.2.2) :: refEntries rest)
      unfold insert_full
      rw [if_pos hek]
      simp [refEntries, hek]
    · rw [refAdd_cons_ne t k v e rest hek]
      show (e.2.1, e.2.2) :: refEntries (refAdd t k v rest)
        = insert_full k v ((e.2.1, e.2.2) :: refEntries rest)
      unfold insert_full
      rw [if_neg hek, ih (List.nodup_cons.mp hnd).2]

/-- Helper for C2: on a list sorted by first-add time, the earliest entry is
the front entry. -/
theorem selectEarliest_sorted (l : List (Nat × Id × Item))
    (hch : List.Chain' (· < ·) (l.map (fun e => e.1))) :
    selectEarliest l = (match l with | [] => none | e :: rest => some (e, rest)) := by
  induction l with
  | nil => rfl
  | cons e rest ih =>
    cases rest with
    | nil => rfl
    | cons m rest' =>
      have hlt : e.1 < m.1 := (List.chain'_cons.mp hch).1
      have hch' : List.Chain' (· < ·) ((m :: rest').map (fun x => x.1)) :=
        (List.chain'_cons.mp hch).2
      show (match selectEarliest (m :: rest') with
        | none => some (e, [])
        | some (mm, rest'') =>
          if e.1 ≤ mm.1 then some (e, m :: rest') else some (mm, e :: rest'')) = _
      rw [ih hch']
      simp only
      rw [if_pos hlt.le]

/-- Helper for C2: the invariant survives an `add` (no watcher registered, so
the entry goes through `insert_full`, matching `refAdd` with a fresh
first-add time). -/
theorem queueRel_add (t : Nat) (k : Id) (v : Item) (l : List (Nat × Id × Item))
    (s : LocalQueue Id Item Unit) (hrel : QueueRel t l s) :
    QueueRel (t + 1) (refAdd t k v l) (LocalQueue.add s k v).1 := by
  obtain ⟨qs, ws⟩ := s
  obtain ⟨hq, hw, hch, hbd, hnd⟩ := hrel
  have hw' : ws = [] := hw
  subst hw'
  have hq' : qs = refEntries l := hq
  subst hq'
  refine ⟨?_, rfl, ?_, ?_, ?_⟩
  · show insert_full k v (refEntries l) = refEntries (refAdd t k v l)
    rw [refEntries_refAdd t k v l hnd]
  · by_cases hany : l.any (fun e => e.2.1 = k) = true
    · rw [map_fst_refAdd_pos t k v l hany]
      exact hch
    · rw [refAdd_of_not_any t k v l hany, List.map_append]
      rw [List.chain'_append]
      refine ⟨hch, List.chain'_singleton t, ?_⟩
      intro x hx y hy
      have hxm : x ∈ l.map (fun e => e.1) := by
        obtain ⟨hne, hxe⟩ := List.mem_getLast?_eq_getLast hx
        rw [hxe]
        exact List.getLast_mem hne
      obtain ⟨e, he, hex⟩ := List.mem_map.mp hxm
      have hyt : y = t := (show t = y by simpa using hy).symm
      rw [hyt, ← hex]
      exact hbd e he
  · intro e he
    by_cases hany : l.any (fun x => x.2.1 = k) = true
    · unfold refAdd at he
      rw [if_pos hany] at he
      obtain ⟨x, hx, hxe⟩ := List.mem_map.mp he
      have : e.1 = x.1 := by
        by_cases h2 : x.2.1 = k <;> simp [h2] at hxe <;> rw [← hxe]
      rw [this]
      exact Nat.lt_succ_of_lt (hbd x hx)
    · rw [refAdd_of_not_any t k v l hany] at he
      rcases List.mem_append.mp he with hin | hnew
      · exact Nat.lt_succ_of_lt (hbd e hin)
      · have : e = (t, k, v) := by simpa using hnew
        rw [this]
        exact Nat.lt_succ_self t
  · by_cases hany : l.any (fun x => x.2.1 = k) = true
    · rw [map_key_refAdd_pos t k v l hany]
      exact hnd
    · rw [refAdd_of_not_any t k v l hany, List.map_append]
      refine List.Nodup.append hnd (by simp) ?_
      intro a ha hb
      have hak : a = k := by simpa using hb
      exact not_mem_keys_of_not_any k l hany (hak ▸ ha)

/-- Helper for C2: runs of the embedded queue and of the reference model
from related states produce the same `remove` results and related final
states. -/
theorem runs_match (ops : List (QOp Id Item)) :
    ∀ (t : Nat) (l : List (Nat × Id × Item)) (s : LocalQueue Id Item Unit),
      QueueRel t l s →
      (runLocal s ops).2 = (runRef t l ops).2 ∧
      (runLocal s ops).1.queue = refEntries (runRef t l ops).1 := by
  induction ops with
  | nil =>
    intro t l s hrel
    exact ⟨rfl, hrel.1⟩
  | cons op ops ih =>
    intro t l s hrel
    cases op with
    | add k v =>
      exact ih (t + 1) (refAdd t k v l) _ (queueRel_add t k v l s hrel)
    | remove =>
      obtain ⟨qs, ws⟩ := s
      obtain ⟨hq, hw, hch, hbd, hnd⟩ := hrel
      have hw' : ws = [] := hw
      subst hw'
      have hq' : qs = refEntries l := hq
      subst hq'
      cases l with
      | nil =>
        have hrel0 : QueueRel t ([] : List (Nat × Id × Item))
            (⟨refEntries [], []⟩ : LocalQueue Id Item Unit) :=
          ⟨rfl, rfl, List.chain'_nil,
            fun e he => absurd he (List.not_mem_nil e), List.nodup_nil⟩
        have hih := ih t [] ⟨refEntries [], []⟩ hrel0
        simp only [runLocal, runRef]
        rw [show LocalQueue.remove (⟨refEntries [], []⟩ : LocalQueue Id Item Unit)
          = (none, ⟨refEntries [], []⟩) from rfl]
        rw [show selectEarliest ([] : List (Nat × Id × Item))
          = (none : Option ((Nat × Id × Item) × List (Nat × Id × Item))) from rfl]
        rcases hloc : runLocal (⟨refEntries [], []⟩ : LocalQueue Id Item Unit) ops
          with ⟨sf, outs⟩
        rcases href : runRef t ([] : List (Nat × Id × Item)) ops with ⟨lf, outsR⟩
        rw [hloc, href] at hih
        exact ⟨congrArg (List.cons none) hih.1, hih.2⟩
      | cons e rl =>
        have hsel : selectEarliest (e :: rl) = some (e, rl) := by
          rw [selectEarliest_sorted (e :: rl) hch]
        have hrel' : QueueRel t rl
            (⟨refEntries rl, []⟩ : LocalQueue Id Item Unit) :=
          ⟨rfl, rfl, hch.tail,
            fun x hx => hbd x (List.mem_cons_of_mem e hx),
            (List.nodup_cons.mp hnd).2⟩
        have hih := ih t rl ⟨refEntries rl, []⟩ hrel'
        simp only [runLocal, runRef]
        rw [show LocalQueue.remove
            (⟨refEntries (e :: rl), []⟩ : LocalQueue Id Item Unit)
          = (some e.2.2, ⟨refEntries rl, []⟩) from rfl]
        rw [hsel]
        rcases hloc : runLocal (⟨refEntries rl, []⟩ : LocalQueue Id Item Unit) ops
          with ⟨sf, outs⟩
        rw [hloc] at hih
        exact ⟨congrArg (List.cons (some e.2.2)) hih.1, hih.2⟩

/-- C2: with no watcher registered, every sequence of `add`/`remove` calls
on the embedded `LocalQueue` returns from each `remove` exactly what the
claim's reference model returns: `Some` of the value of the
earliest-added-and-not-yet-removed entry (`None` on an empty queue), and
the surviving entries keep insertion order (the final queue equals the
reference model's pending entries in first-add order). -/
theorem c2_fifo_order (ops : List (QOp Id Item)) :
    (runLocal (LocalQueue.new : LocalQueue Id Item Unit) ops).2
      = (runRef 0 [] ops).2
    ∧ (runLocal (LocalQueue.new : LocalQueue Id Item Unit) ops).1.queue
      = refEntries (runRef 0 [] ops).1 :=
  runs_match ops 0 []
    (LocalQueue.new : LocalQueue Id Item Unit)
    ⟨rfl, rfl, List.chain'_nil, fun e he => absurd he (List.not_mem_nil e),
      List.nodup_nil⟩

end QueueProofs

end Bankbot
